import Mathlib

/-!
Verification of the pyhgtmap contour pipeline.

Shallow embedding of the parts of pyhgtmap relevant to the frozen claims:
varint encoding (`pyhgtmap/varint.py`), the elevation classifier and shared
output helpers (`pyhgtmap/output/__init__.py`), the XML way writer
(`pyhgtmap/output/osmUtil.py`), the O5M encoder (`pyhgtmap/output/o5mUtil.py`),
the PBF encoder (`pyhgtmap/output/pbfUtil.py`), the way splitter and path
simplifier (`pyhgtmap/contour.py`), the tile chopper (`pyhgtmap/hgt/file.py`)
and the id allocator (`pyhgtmap/hgt/processor.py`).

Python machine-level conventions used throughout the embedding:
* Python ints are unbounded, so they are modelled as `Nat`/`Int`
  (the shared multiprocessing counters are `ctypes` unsigned longs and
  wrap modulo `2 ^ 64`, which is modelled explicitly);
* byte strings are `List Nat` with every entry `< 256`;
* floats are modelled as rationals (`ℚ`); `int(x)` is truncation toward zero.
-/

namespace Pyhgtmap

/-! ## varint.py -/

/-- Structural helper for `int2str`: the fuel bounds the number of loop
iterations (any fuel at least the encoded number gives the same digits). -/
def int2strAux : Nat → Nat → List Nat
  | 0, n => [n]
  | fuel + 1, n =>
    if n < 128 then [n] else (n % 128 + 128) :: int2strAux fuel (n / 128)

/-- `int2str` from `pyhgtmap/varint.py`: little-endian base-128 encoding of a
non-negative integer, continuation bit in bit 7.  The Python loop
(`b = n & 127; n >>= 7; while n: append(b | 128); ...; append(b)`) emits
`n % 128` with the continuation bit whenever a non-zero quotient remains. -/
def int2str (n : Nat) : List Nat := int2strAux n n

theorem int2strAux_congr (f : Nat) : ∀ (f' n : Nat), n ≤ f → n ≤ f' →
    int2strAux f n = int2strAux f' n := by
  induction f with
  | zero =>
    intro f' n hf hf'
    have hn : n = 0 := by omega
    subst hn
    cases f' with
    | zero => rfl
    | succ f' => simp [int2strAux]
  | succ f ih =>
    intro f' n hf hf'
    cases f' with
    | zero =>
      have hn : n = 0 := by omega
      subst hn
      simp [int2strAux]
    | succ f' =>
      by_cases h : n < 128
      · simp [int2strAux, h]
      · have hd : n / 128 < n := Nat.div_lt_self (by omega) (by norm_num)
        simp only [int2strAux, if_neg h]
        rw [ih f' (n / 128) (by omega) (by omega)]

/-- The loop equation of `int2str`, matching the Python control flow. -/
theorem int2str_def (n : Nat) :
    int2str n = if n < 128 then [n]
      else (n % 128 + 128) :: int2str (n / 128) := by
  by_cases h : n < 128
  · rw [if_pos h]
    unfold int2str
    cases n with
    | zero => rfl
    | succ m => simp [int2strAux, h]
  · rw [if_neg h]
    unfold int2str
    obtain ⟨m, rfl⟩ : ∃ m, n = m + 1 := ⟨n - 1, by omega⟩
    simp only [int2strAux, if_neg h]
    have hd : (m + 1) / 128 < m + 1 := Nat.div_lt_self (by omega) (by norm_num)
    rw [int2strAux_congr m ((m + 1) / 128) ((m + 1) / 128) (by omega) (by omega)]

/-- `sint2str` from `pyhgtmap/varint.py`: zig-zag then `int2str`.
`n > -1` maps to `2 * n`; otherwise `((-n - 1) << 1) | 1 = 2 * (-n - 1) + 1`. -/
def sint2str (n : Int) : List Nat :=
  if n > -1 then int2str (2 * n).toNat
  else int2str ((-n - 1) * 2 + 1).toNat

/-- Reference little-endian base-128 decoder: a byte below 128 ends the
number, a byte with the continuation bit contributes its low 7 bits. -/
def decode_int : List Nat → Nat
  | [] => 0
  | b :: rest => if b < 128 then b else (b - 128) + 128 * decode_int rest

/-- Reference zig-zag decoder on top of `decode_int`. -/
def decode_sint (bs : List Nat) : Int :=
  let m := decode_int bs
  if m % 2 = 0 then (m / 2 : Nat) else -((((m - 1) / 2 : Nat)) : Int) - 1

theorem decode_int_int2str (n : Nat) : decode_int (int2str n) = n := by
  induction n using Nat.strong_induction_on with
  | _ n ih =>
    rw [int2str_def]
    by_cases h : n < 128
    · rw [if_pos h]
      simp [decode_int, h]
    · rw [if_neg h]
      have hd : n / 128 < n := Nat.div_lt_self (by omega) (by norm_num)
      have hmod : ¬ (n % 128 + 128 < 128) := by omega
      simp only [decode_int, if_neg hmod, ih (n / 128) hd]
      omega

theorem int2str_bytes (n : Nat) : ∀ b ∈ int2str n, b < 256 := by
  induction n using Nat.strong_induction_on with
  | _ n ih =>
    rw [int2str_def]
    by_cases h : n < 128
    · rw [if_pos h]
      intro b hb
      simp only [List.mem_singleton] at hb
      omega
    · rw [if_neg h]
      intro b hb
      rcases List.mem_cons.mp hb with hb | hb
      · have h128 : n % 128 < 128 := Nat.mod_lt n (by norm_num)
        omega
      · exact ih (n / 128) (Nat.div_lt_self (by omega) (by norm_num)) b hb

theorem decode_sint_sint2str (n : Int) : decode_sint (sint2str n) = n := by
  by_cases h : n > -1
  · have hn : 0 ≤ n := by omega
    rw [sint2str, if_pos h]
    unfold decode_sint
    rw [decode_int_int2str]
    have h2 : (2 * n).toNat = 2 * n.toNat := by omega
    have hev : (2 * n).toNat % 2 = 0 := by omega
    rw [if_pos hev]
    omega
  · rw [sint2str, if_neg h]
    unfold decode_sint
    rw [decode_int_int2str]
    have hneg : n ≤ -1 := by omega
    have h2 : ((-n - 1) * 2 + 1).toNat = 2 * (-n - 1).toNat + 1 := by omega
    have hodd : ¬ (((-n - 1) * 2 + 1).toNat % 2 = 0) := by omega
    rw [if_neg hodd]
    omega

/-! ## Elevation classifier (`make_elev_classifier` in `pyhgtmap/output/__init__.py`) -/

/-- The classifier returned by `make_elev_classifier(majorDivisor, mediumDivisor)`.
Python `%` on a positive divisor agrees with `Int.emod`. -/
def classify (majorDivisor mediumDivisor height : Int) : String :=
  if height % majorDivisor = 0 then ("elevation_major")
  else if height % mediumDivisor = 0 then ("elevation_medium")
  else ("elevation_minor")

/-- C5: `int2str` produces little-endian base-128 bytes (each below 256) and
the reference base-128 decoder recovers every non-negative integer from its
encoding; `sint2str` is zig-zag and the reference zig-zag decoder recovers
every integer in `[-2^63, 2^63)` from its encoding. -/
theorem c5_varint_round_trip :
    (∀ n : Int, -2 ^ 63 ≤ n → n < 2 ^ 63 → decode_sint (sint2str n) = n)
    ∧ (∀ n : Nat, decode_int (int2str n) = n)
    ∧ (∀ n : Nat, ∀ b ∈ int2str n, b < 256) :=
  ⟨fun n _ _ => decode_sint_sint2str n, decode_int_int2str, int2str_bytes⟩

theorem c5_varint_round_trip_witness :
    decode_sint (sint2str (-300)) = -300 ∧ decode_int (int2str 300) = 300 :=
  ⟨c5_varint_round_trip.1 (-300) (by norm_num) (by norm_num),
   c5_varint_round_trip.2.1 300⟩

/-- C8: with positive divisors `MAJOR` and `MEDIUM`, `classify E` is
`elevation_major` iff `E mod MAJOR = 0`, `elevation_medium` iff
`E mod MEDIUM = 0` and `E mod MAJOR ≠ 0`, and `elevation_minor` otherwise;
in particular `classify 0 = elevation_major`. -/
theorem c8_elev_classifier (MAJOR MEDIUM E : Int)
    (hMaj : 0 < MAJOR) (hMed : 0 < MEDIUM) :
    (classify MAJOR MEDIUM E = "elevation_major" ↔ E % MAJOR = 0)
    ∧ (classify MAJOR MEDIUM E = "elevation_medium"
        ↔ (E % MEDIUM = 0 ∧ E % MAJOR ≠ 0))
    ∧ (classify MAJOR MEDIUM E = "elevation_minor"
        ↔ (E % MAJOR ≠ 0 ∧ E % MEDIUM ≠ 0))
    ∧ classify MAJOR MEDIUM 0 = "elevation_major" := by
  unfold classify
  by_cases h1 : E % MAJOR = 0 <;> by_cases h2 : E % MEDIUM = 0 <;>
    simp [h1, h2]

theorem c8_elev_classifier_witness :
    (0 : Int) < 200 ∧ (0 : Int) < 100 ∧
    (classify 200 100 0 = "elevation_major"
      ∧ classify 200 100 200 = "elevation_major"
      ∧ classify 200 100 100 = "elevation_medium"
      ∧ classify 200 100 30 = "elevation_minor") := by
  refine ⟨by norm_num, by norm_num, ?_, ?_, ?_, ?_⟩
  · exact (c8_elev_classifier 200 100 0 (by norm_num) (by norm_num)).2.2.2
  · exact ((c8_elev_classifier 200 100 200 (by norm_num) (by norm_num)).1).mpr
      (by decide)
  · exact ((c8_elev_classifier 200 100 100 (by norm_num) (by norm_num)).2.1).mpr
      (by decide)
  · exact ((c8_elev_classifier 200 100 30 (by norm_num) (by norm_num)).2.2.1).mpr
      (by decide)

/-! ## Id allocator (`HgtFilesProcessor` in `pyhgtmap/hgt/processor.py`)

The two shared counters `next_node_id` / `next_way_id` are
`multiprocessing.Value("L", ...)`, i.e. C unsigned longs (64 bits on the
supported platforms), incremented under the counter's lock.  A run is the
sequence of reservation requests made by `process_tile_internal`
(`nb_nodes` against the node counter, `nb_ways` against the way counter);
since each reservation happens atomically under the lock, the concurrent
run is equivalent to some sequential interleaving, which is what
`reserveAll` models. -/

/-- `HgtFilesProcessor.get_and_inc_counter`: read the counter, advance it by
`inc_value` (a C unsigned long wraps modulo `2 ^ 64`), return the old value. -/
def get_and_inc_counter (counter inc_value : Nat) : Nat × Nat :=
  (counter, (counter + inc_value) % 2 ^ 64)

/-- A whole run of reservations against one counter: feed each requested
delta to `get_and_inc_counter`, collecting the returned `(old, delta)`
pairs and the final counter value. -/
def reserveAll : Nat → List Nat → List (Nat × Nat) × Nat
  | c, [] => ([], c)
  | c, d :: ds =>
    let r := get_and_inc_counter c d
    let rest := reserveAll r.2 ds
    ((r.1, d) :: rest.1, rest.2)

theorem reserveAll_length (c : Nat) (ds : List Nat) :
    (reserveAll c ds).1.length = ds.length := by
  induction ds generalizing c with
  | nil => rfl
  | cons d ds ih => simp [reserveAll, get_and_inc_counter, ih]

theorem reserveAll_snd (c : Nat) (ds : List Nat) (h : c + ds.sum < 2 ^ 64) :
    (reserveAll c ds).2 = c + ds.sum := by
  induction ds generalizing c with
  | nil => simp [reserveAll]
  | cons d ds ih =>
    simp only [reserveAll, get_and_inc_counter]
    rw [Nat.mod_eq_of_lt (by simp at h; omega)]
    rw [ih (c + d) (by simp at h ⊢; omega)]
    simp; omega

theorem reserveAll_getD (c : Nat) (ds : List Nat) (h : c + ds.sum < 2 ^ 64)
    (i : Nat) (hi : i < ds.length) :
    (reserveAll c ds).1.getD i (0, 0) = (c + (ds.take i).sum, ds.getD i 0) := by
  induction ds generalizing c i with
  | nil => simp at hi
  | cons d ds ih =>
    simp only [reserveAll, get_and_inc_counter]
    rw [Nat.mod_eq_of_lt (by simp at h; omega)]
    cases i with
    | zero => simp
    | succ i =>
      simp only [List.getD_cons_succ, List.take_succ_cons, List.sum_cons]
      rw [ih (c + d) (by simp at h ⊢; omega) i (by simpa using hi)]
      congr 1
      omega

theorem sum_take_mono (ds : List Nat) {i j : Nat} (h : i ≤ j) :
    (ds.take i).sum ≤ (ds.take j).sum := by
  have h1 : ds.take i = (ds.take j).take i := by
    rw [List.take_take, Nat.min_eq_left h]
  have h2 : (ds.take j).take i ++ (ds.take j).drop i = ds.take j :=
    List.take_append_drop i (ds.take j)
  calc (ds.take i).sum = ((ds.take j).take i).sum := by rw [h1]
    _ ≤ ((ds.take j).take i).sum + ((ds.take j).drop i).sum := Nat.le_add_right _ _
    _ = (ds.take j).sum := by rw [← List.sum_append, h2]

theorem sum_take_succ_getD (ds : List Nat) (i : Nat) (hi : i < ds.length) :
    (ds.take (i + 1)).sum = (ds.take i).sum + ds.getD i 0 := by
  rw [List.sum_take_succ ds i hi, List.getD_eq_getElem ds 0 hi]

/-- C1: `get_and_inc_counter` returns the counter's old value and advances it
by the requested delta; over a whole run that stays below `2 ^ 64` the
returned old values are monotonically non-decreasing, the final counter is
the start plus the sum of all deltas, and the reserved intervals
`[old_i, old_i + delta_i)` are pairwise disjoint — hence the node-id
(resp. way-id) ranges of any two sub-tiles emitted in the same run are
disjoint. -/
theorem c1_id_allocation_disjoint (start : Nat) (deltas : List Nat)
    (hov : start + deltas.sum < 2 ^ 64) :
    (∀ c d, c + d < 2 ^ 64 → get_and_inc_counter c d = (c, c + d))
    ∧ (∀ i j, i ≤ j → j < (reserveAll start deltas).1.length →
        ((reserveAll start deltas).1.getD i (0, 0)).1
          ≤ ((reserveAll start deltas).1.getD j (0, 0)).1)
    ∧ (reserveAll start deltas).2 = start + deltas.sum
    ∧ (∀ i j, i < j → j < (reserveAll start deltas).1.length →
        ((reserveAll start deltas).1.getD i (0, 0)).1
            + ((reserveAll start deltas).1.getD i (0, 0)).2
          ≤ ((reserveAll start deltas).1.getD j (0, 0)).1)
    ∧ (∀ i j x, i < (reserveAll start deltas).1.length →
        j < (reserveAll start deltas).1.length → i ≠ j →
        ¬(((reserveAll start deltas).1.getD i (0, 0)).1 ≤ x
          ∧ x < ((reserveAll start deltas).1.getD i (0, 0)).1
              + ((reserveAll start deltas).1.getD i (0, 0)).2
          ∧ ((reserveAll start deltas).1.getD j (0, 0)).1 ≤ x
          ∧ x < ((reserveAll start deltas).1.getD j (0, 0)).1
              + ((reserveAll start deltas).1.getD j (0, 0)).2)) := by
  have hlen := reserveAll_length start deltas
  have hget := reserveAll_getD start deltas hov
  have hord : ∀ i j, i < j → j < (reserveAll start deltas).1.length →
      ((reserveAll start deltas).1.getD i (0, 0)).1
          + ((reserveAll start deltas).1.getD i (0, 0)).2
        ≤ ((reserveAll start deltas).1.getD j (0, 0)).1 := by
    intro i j hij hj
    rw [hlen] at hj
    rw [hget i (by omega), hget j hj]
    simp only
    have h1 : (deltas.take (i + 1)).sum
        = (deltas.take i).sum + deltas.getD i 0 :=
      sum_take_succ_getD deltas i (by omega)
    have h2 : (deltas.take (i + 1)).sum ≤ (deltas.take j).sum :=
      sum_take_mono deltas (by omega)
    omega
  refine ⟨?_, ?_, reserveAll_snd start deltas hov, hord, ?_⟩
  · intro c d h
    unfold get_and_inc_counter
    rw [Nat.mod_eq_of_lt h]
  · intro i j hij hj
    rw [hlen] at hj
    rw [hget i (by omega), hget j hj]
    simpa using sum_take_mono deltas hij
  · intro i j x hi hj hne hx
    rcases Nat.lt_or_ge i j with h | h
    · have := hord i j h hj
      omega
    · have hji : j < i := by omega
      have := hord j i hji hi
      omega

theorem c1_id_allocation_disjoint_witness :
    1000 + [2, 3].sum < 2 ^ 64
    ∧ ((reserveAll 1000 [2, 3]).1.getD 0 (0, 0)).1
        + ((reserveAll 1000 [2, 3]).1.getD 0 (0, 0)).2
      ≤ ((reserveAll 1000 [2, 3]).1.getD 1 (0, 0)).1 :=
  ⟨by norm_num,
   (c1_id_allocation_disjoint 1000 [2, 3] (by norm_num)).2.2.2.1 0 1
     (by norm_num) (by rw [reserveAll_length]; norm_num)⟩

/-! ## Path simplifier and way splitter (`pyhgtmap/contour.py`) -/

/-- `simplify_path` from `pyhgtmap/contour.py`.  The consecutive-duplicate
removal step is commented out in the source (`deduped_path = input_path`),
so the function only calls the external RDP library when an epsilon is
given.  The RDP implementation (`pybind11_rdp.rdp`, a C++ binding) is a
parameter of the embedding. -/
def simplify_path {α : Type} (rdp : List α → ℚ → List α)
    (input_path : List α) (rdp_epsilon : Option ℚ) : List α :=
  let deduped_path := input_path
  match rdp_epsilon with
  | none => deduped_path
  | some eps => rdp deduped_path eps

/-- Modelled from the spec: "Dedup: consecutive identical points are
removed."  This is the operation the spec claims `simplify_path` performs
before any RDP call; it is compared against the source translation above. -/
def dedupConsecutive {α : Type} [DecidableEq α] : List α → List α
  | [] => []
  | [p] => [p]
  | p :: q :: rest =>
    if p = q then dedupConsecutive (q :: rest)
    else p :: dedupConsecutive (q :: rest)

/-- C10 counterexample: on the path `[(0,0), (0,0)]` with `rdp_epsilon = None`,
`simplify_path` returns the input with the consecutive duplicate still
present, which differs from the spec's dedup. -/
theorem c10_counterexample_dedup_not_applied :
    simplify_path (fun p _ => p) [((0 : ℚ), (0 : ℚ)), (0, 0)] none
        = [((0 : ℚ), (0 : ℚ)), (0, 0)]
    ∧ dedupConsecutive [((0 : ℚ), (0 : ℚ)), (0, 0)] = [((0 : ℚ), (0 : ℚ))]
    ∧ simplify_path (fun p _ => p) [((0 : ℚ), (0 : ℚ)), (0, 0)] none
        ≠ dedupConsecutive [((0 : ℚ), (0 : ℚ)), (0, 0)] := by
  refine ⟨rfl, by norm_num [dedupConsecutive], by norm_num [simplify_path, dedupConsecutive]⟩

/-- C10 (amended): `simplify_path` removes nothing itself — with
`rdp_epsilon = None` it returns the input path unchanged (consecutive
duplicates included), and with an epsilon it simply hands the unmodified
path to the RDP library. -/
theorem c10_simplify_path_none_identity :
    (∀ (rdp : List (ℚ × ℚ) → ℚ → List (ℚ × ℚ)) (path : List (ℚ × ℚ)),
      simplify_path rdp path none = path)
    ∧ (∀ (rdp : List (ℚ × ℚ) → ℚ → List (ℚ × ℚ)) (path : List (ℚ × ℚ)) (eps : ℚ),
      simplify_path rdp path (some eps) = rdp path eps) :=
  ⟨fun _ _ => rfl, fun _ _ _ => rfl⟩

/-- Number of chunks produced by `splitList`'s list comprehension: the
length of `range(0, len(input_list) - 1, max_nodes_per_way - 1)`,
i.e. `⌈(L - 1) / (M - 1)⌉`. -/
def splitChunkCount (M L : ℕ) : ℕ := (L - 1 + (M - 1) - 1) / (M - 1)

/-- The chunk list of `ContoursGenerator.splitList`:
`[input_list[i : i + length] for i in range(0, len(input_list) - 1, length - 1)]`. -/
def splitChunks {α : Type} (M : ℕ) (l : List α) : List (List α) :=
  (List.range' 0 (splitChunkCount M l.length) (M - 1)).map
    (fun i => (l.drop i).take M)

/-- `ContoursGenerator.splitList` from `pyhgtmap/contour.py`: split a path
into chunks of at most `max_nodes_per_way` nodes, consecutive chunks sharing
one endpoint; returns the chunk list, the node count (closed chunks count
one node less) and the chunk count.  (`numpy.all(path[0] == path[-1])` on a
non-empty path is the `head? = getLast?` test; Python raises `ValueError`
for `max_nodes_per_way = 1`, which is outside this embedding's domain.) -/
def splitList {α : Type} [DecidableEq α] (max_nodes_per_way : ℕ)
    (input_list : List α) : List (List α) × ℕ × ℕ :=
  if input_list.length < 2 then ([], 0, 0)
  else
    let tmpList :=
      if max_nodes_per_way = 0 ∨ input_list.length ≤ max_nodes_per_way then
        [input_list]
      else splitChunks max_nodes_per_way input_list
    let pathList := tmpList.filter (fun p => p.length ≠ 0)
    let numOfClosedPaths :=
      (pathList.filter (fun p => p.head? = p.getLast?)).length
    (pathList, (pathList.map List.length).sum - numOfClosedPaths,
      pathList.length)

theorem splitChunkCount_spec (M L : ℕ) (hM : 2 ≤ M) (hL : 2 ≤ L) :
    splitChunkCount M L = (L - 2) / (M - 1) + 1 := by
  unfold splitChunkCount
  have h : L - 1 + (M - 1) - 1 = (L - 2) + (M - 1) := by omega
  rw [h, Nat.add_div_right _ (by omega)]

theorem splitChunkCount_upper (M L : ℕ) (hM : 2 ≤ M) (hL : 2 ≤ L) :
    (splitChunkCount M L - 1) * (M - 1) ≤ L - 2 := by
  rw [splitChunkCount_spec M L hM hL]
  simpa using Nat.div_mul_le_self (L - 2) (M - 1)

theorem splitChunkCount_lower (M L : ℕ) (hM : 2 ≤ M) (hL : 2 ≤ L) :
    L - 1 ≤ splitChunkCount M L * (M - 1) := by
  rw [splitChunkCount_spec M L hM hL]
  have hdm := Nat.div_add_mod (L - 2) (M - 1)
  have hr : (L - 2) % (M - 1) < M - 1 := Nat.mod_lt _ (by omega)
  have hexp : ((L - 2) / (M - 1) + 1) * (M - 1)
      = (M - 1) * ((L - 2) / (M - 1)) + (M - 1) := by ring
  omega

theorem splitChunks_length {α : Type} (M : ℕ) (l : List α) :
    (splitChunks M l).length = splitChunkCount M l.length := by
  simp [splitChunks]

theorem splitChunks_getD {α : Type} (M : ℕ) (l : List α) (k : ℕ)
    (hk : k < splitChunkCount M l.length) :
    (splitChunks M l).getD k [] = (l.drop ((M - 1) * k)).take M := by
  unfold splitChunks
  rw [List.getD_eq_getElem _ _ (by simpa using hk)]
  simp [List.getElem_range']

theorem splitChunks_mem {α : Type} (M : ℕ) (l : List α) (c : List α)
    (hc : c ∈ splitChunks M l) :
    ∃ k < splitChunkCount M l.length, c = (l.drop ((M - 1) * k)).take M := by
  unfold splitChunks at hc
  obtain ⟨i, hi, rfl⟩ := List.mem_map.mp hc
  obtain ⟨k, hk, rfl⟩ := List.mem_range'.mp hi
  exact ⟨k, hk, by simp⟩

theorem chunk_start_le {α : Type} (M : ℕ) (l : List α) (k : ℕ)
    (hM : 2 ≤ M) (hML : M < l.length) (hk : k < splitChunkCount M l.length) :
    (M - 1) * k ≤ l.length - 2 := by
  have hL : 2 ≤ l.length := by omega
  have h1 : (M - 1) * k ≤ (M - 1) * (splitChunkCount M l.length - 1) :=
    Nat.mul_le_mul_left _ (by omega)
  have h2 := splitChunkCount_upper M l.length hM hL
  have h3 : (splitChunkCount M l.length - 1) * (M - 1)
      = (M - 1) * (splitChunkCount M l.length - 1) := Nat.mul_comm _ _
  omega

theorem chunk_length {α : Type} (M : ℕ) (l : List α) (i : ℕ) :
    ((l.drop i).take M).length = min M (l.length - i) := by
  simp

theorem chunk_full_getLast? {α : Type} (M : ℕ) (l : List α) (i : ℕ)
    (hM : 1 ≤ M) (h : i + M ≤ l.length) :
    ((l.drop i).take M).getLast? = l[i + M - 1]? := by
  rw [List.getLast?_eq_getElem? _]
  have hlen : ((l.drop i).take M).length = M := by simp; omega
  rw [hlen]
  rw [List.getElem?_take, if_pos (by omega : M - 1 < M)]
  rw [List.getElem?_drop l i (M - 1)]
  congr 1
  omega

theorem chunk_head? {α : Type} (M : ℕ) (l : List α) (i : ℕ)
    (hM : 1 ≤ M) (h : i < l.length) :
    ((l.drop i).take M).head? = l[i]? := by
  rw [List.head?_eq_getElem? _]
  rw [List.getElem?_take, if_pos (by omega : 0 < M)]
  rw [List.getElem?_drop l i 0, Nat.add_zero]

theorem filter_closed_le_sum {α : Type} [DecidableEq α]
    (cs : List (List α)) (h : ∀ c ∈ cs, c.length ≠ 0) :
    (cs.filter (fun p => p.head? = p.getLast?)).length
      ≤ (cs.map List.length).sum := by
  induction cs with
  | nil => simp
  | cons c cs ih =>
    have hc := h c (List.mem_cons_self c cs)
    have ih' := ih (fun x hx => h x (List.mem_cons_of_mem c hx))
    by_cases hcl : c.head? = c.getLast? <;> simp [List.filter_cons, hcl] <;> omega

theorem splitList_nodes_accounting {α : Type} [DecidableEq α]
    (cs : List (List α)) (h : ∀ c ∈ cs, c.length ≠ 0) :
    (cs.map List.length).sum
        - (cs.filter (fun p => p.head? = p.getLast?)).length
      = (cs.map (fun c =>
          if c.head? = c.getLast? then c.length - 1 else c.length)).sum := by
  induction cs with
  | nil => simp
  | cons c cs ih =>
    have hc := h c (List.mem_cons_self c cs)
    have h' : ∀ x ∈ cs, x.length ≠ 0 := fun x hx => h x (List.mem_cons_of_mem c hx)
    have hle := filter_closed_le_sum cs h'
    have ih' := ih h'
    by_cases hcl : c.head? = c.getLast? <;>
      simp [List.filter_cons, hcl] <;> omega

theorem chunk_coverage (M L : ℕ) (hM : 2 ≤ M) (hML : M < L) (i : ℕ)
    (hi : i < L) :
    ∃ k < splitChunkCount M L, (M - 1) * k ≤ i ∧ i < (M - 1) * k + M := by
  have hL : 2 ≤ L := by omega
  obtain ⟨q, hq⟩ : ∃ q, splitChunkCount M L = q + 1 :=
    ⟨(L - 2) / (M - 1), splitChunkCount_spec M L hM hL⟩
  have hub : q * (M - 1) ≤ L - 2 := by
    have h := splitChunkCount_upper M L hM hL
    rw [hq] at h
    simpa using h
  have hlb : L - 1 ≤ q * (M - 1) + (M - 1) := by
    have h := splitChunkCount_lower M L hM hL
    rw [hq] at h
    have hx : (q + 1) * (M - 1) = q * (M - 1) + (M - 1) := by ring
    omega
  by_cases hc : i / (M - 1) ≤ q
  · refine ⟨i / (M - 1), by omega, ?_, ?_⟩ <;>
    · have hdm := Nat.div_add_mod i (M - 1)
      have hr : i % (M - 1) < M - 1 := Nat.mod_lt _ (by omega)
      omega
  · refine ⟨q, by omega, ?_, ?_⟩
    · have h1 : (M - 1) * (q + 1) ≤ (M - 1) * (i / (M - 1)) :=
        Nat.mul_le_mul_left _ (by omega)
      have h2 : (M - 1) * (i / (M - 1)) ≤ i := Nat.mul_div_le i (M - 1)
      have h3 : (M - 1) * (q + 1) = (M - 1) * q + (M - 1) := by ring
      have h4 : (M - 1) * q = q * (M - 1) := Nat.mul_comm _ _
      omega
    · have h4 : (M - 1) * q = q * (M - 1) := Nat.mul_comm _ _
      omega

theorem splitList_chunks_case {α : Type} [DecidableEq α] (M : ℕ) (l : List α)
    (hM : 2 ≤ M) (hML : M < l.length) :
    (splitList M l).1 = splitChunks M l := by
  unfold splitList
  rw [if_neg (by omega : ¬ l.length < 2)]
  simp only
  rw [if_neg (by omega : ¬(M = 0 ∨ l.length ≤ M))]
  apply List.filter_eq_self.mpr
  intro c hc
  obtain ⟨k, hk, rfl⟩ := splitChunks_mem M l c hc
  have hstart := chunk_start_le M l k hM hML hk
  simp only [List.length_take, List.length_drop, ne_eq, decide_eq_true_eq]
  omega

/-- C3 (amended): the way splitter's full contract.  If the polyline has
fewer than 2 points nothing is emitted; if `M = 0` or `L ≤ M` the polyline
is emitted unchanged as one chunk; otherwise the chunks are exactly
`input[k(M−1) : k(M−1)+M]` for `k < ⌈(L−1)/(M−1)⌉`, every chunk has at
least 2 points, consecutive chunks share one endpoint, and every index
below `L` is covered by some chunk; the node total counts `len` points for
an open chunk and `len − 1` for a closed chunk.  (The spec's worked example
S2 — an open 5-point polyline with `M = 3` — therefore yields the chunks
`[n0,n1,n2]`, `[n2,n3,n4]` with 2 ways and 6 nodes, not 5: the shared
endpoint is counted in both chunks.) -/
theorem c3_way_splitter_amended :
    (∀ (M : ℕ) (l : List ℕ), l.length < 2 → splitList M l = ([], 0, 0))
    ∧ (∀ (M : ℕ) (l : List ℕ), 2 ≤ l.length → (M = 0 ∨ l.length ≤ M) →
        (splitList M l).1 = [l] ∧ (splitList M l).2.2 = 1)
    ∧ (∀ (M : ℕ) (l : List ℕ), 2 ≤ M → M < l.length →
        ((splitList M l).1.length = splitChunkCount M l.length
        ∧ (∀ k, k < splitChunkCount M l.length →
            (splitList M l).1.getD k [] = (l.drop ((M - 1) * k)).take M)
        ∧ (∀ c ∈ (splitList M l).1, 2 ≤ c.length)
        ∧ (∀ k, k + 1 < splitChunkCount M l.length →
            ((splitList M l).1.getD k []).getLast?
              = ((splitList M l).1.getD (k + 1) []).head?)
        ∧ (∀ i, i < l.length → ∃ k < splitChunkCount M l.length,
            (M - 1) * k ≤ i ∧ i < (M - 1) * k + M)))
    ∧ (∀ (M : ℕ) (l : List ℕ),
        (splitList M l).2.1 = ((splitList M l).1.map (fun c =>
          if c.head? = c.getLast? then c.length - 1 else c.length)).sum) := by
  refine ⟨?_, ?_, ?_, ?_⟩
  · intro M l h
    unfold splitList
    rw [if_pos h]
  · intro M l h2 hcase
    unfold splitList
    rw [if_neg (by omega : ¬ l.length < 2)]
    simp only
    rw [if_pos hcase]
    have hne : l ≠ [] := by
      intro h
      rw [h] at h2
      simp at h2
    simp [hne]
  · intro M l hM hML
    have hL : 2 ≤ l.length := by omega
    have hchunks := splitList_chunks_case M l hM hML
    have hgetD : ∀ k, k < splitChunkCount M l.length →
        (splitList M l).1.getD k [] = (l.drop ((M - 1) * k)).take M := by
      intro k hk
      rw [hchunks]
      exact splitChunks_getD M l k hk
    refine ⟨by rw [hchunks]; exact splitChunks_length M l, hgetD, ?_, ?_, ?_⟩
    · intro c hc
      rw [hchunks] at hc
      obtain ⟨k, hk, rfl⟩ := splitChunks_mem M l c hc
      have hstart := chunk_start_le M l k hM hML hk
      simp only [List.length_take, List.length_drop]
      omega
    · intro k hk1
      have hk : k < splitChunkCount M l.length := by omega
      rw [hgetD k hk, hgetD (k + 1) hk1]
      have hstart1 := chunk_start_le M l (k + 1) hM hML hk1
      have hmulsucc : (M - 1) * (k + 1) = (M - 1) * k + (M - 1) :=
        Nat.mul_succ _ _
      have hfull : (M - 1) * k + M ≤ l.length := by omega
      rw [chunk_full_getLast? M l ((M - 1) * k) (by omega) hfull]
      rw [chunk_head? M l ((M - 1) * (k + 1)) (by omega) (by omega)]
      congr 1
      omega
    · exact fun i hi => chunk_coverage M l.length hM hML i hi
  · intro M l
    unfold splitList
    by_cases h2 : l.length < 2
    · rw [if_pos h2]; simp
    · rw [if_neg h2]
      simp only
      apply splitList_nodes_accounting
      intro c hc
      rcases List.mem_filter.mp hc with ⟨_, hlen⟩
      simpa using hlen

/-- C3 counterexample: an open 5-point polyline with `max_nodes_per_way = 3`
yields the two expected chunks and 2 ways, but the node total is 6, not 5
as the claim (spec scenario S2) states. -/
theorem c3_counterexample_s2_total_nodes :
    splitList 3 [0, 1, 2, 3, 4] = ([[0, 1, 2], [2, 3, 4]], 6, 2)
    ∧ (splitList 3 [0, 1, 2, 3, 4]).2.1 ≠ 5 := by
  constructor <;> decide

theorem c3_way_splitter_amended_witness :
    ((2 : ℕ) ≤ 3 ∧ 3 < [0, 1, 2, 3, 4].length
      ∧ (splitList 3 [0, 1, 2, 3, 4]).1.length
          = splitChunkCount 3 [0, 1, 2, 3, 4].length)
    ∧ (([] : List ℕ).length < 2 ∧ splitList 3 ([] : List ℕ) = ([], 0, 0)) := by
  refine ⟨⟨by norm_num, by simp, ?_⟩, ⟨by simp, ?_⟩⟩
  · exact ((c3_way_splitter_amended.2.2.1) 3 [0, 1, 2, 3, 4]
      (by norm_num) (by simp)).1
  · exact (c3_way_splitter_amended.1) 3 ([] : List ℕ) (by simp)

/-! ## Shared output helpers (`pyhgtmap/output/__init__.py`) -/

/-- A traced point: `(lon, lat)` as rationals (floats in the source). -/
abbrev Point := ℚ × ℚ

/-- Python `int(x)`: truncation toward zero. -/
def pyInt (q : ℚ) : ℤ := if 0 ≤ q then ⌊q⌋ else ⌈q⌉

/-- `WayType` named tuple: first node ID, number of nodes, closed loop,
elevation. -/
structure WayType where
  first_node_id : ℕ
  nb_nodes : ℕ
  closed_loop : Bool
  elevation : ℤ
deriving DecidableEq

/-- `_makePoints` from `pyhgtmap/output/__init__.py`: allocate one id per
point of the path and scale the coordinates by `precision`
(`int(lon * precision)`); when the path is a closed contour
(`path[0] == path[-1]`) drop the last node and id, repeat the first id and
give the counter back one id.  `none` models the `IndexError` Python raises
on paths of fewer than 2 points. -/
def makePoints (path : List Point) (curId : ℕ) (precision : ℤ) :
    Option (List (ℤ × ℤ) × List ℕ × ℕ) :=
  match path with
  | [] => none
  | [_] => none
  | _ :: _ :: _ =>
    let nodes := path.map (fun p => (pyInt (p.1 * precision), pyInt (p.2 * precision)))
    let ids := List.range' curId path.length
    if path.head? = path.getLast? then
      some (nodes.dropLast, ids.dropLast ++ [curId], curId + path.length - 1)
    else
      some (nodes, ids, curId + path.length)

/-- `make_nodes_ways` from `pyhgtmap/output/__init__.py`: run `_makePoints`
over every path of a contour list, collecting the scaled nodes and one
`WayType` per path (closed when the first and last node references are
equal, with one node less). -/
def make_nodes_ways :
    List (List Point) → ℤ → ℕ → ℤ → Option (List (ℤ × ℤ) × List WayType × ℕ)
  | [], _, c, _ => some ([], [], c)
  | path :: rest, elev, c, prec =>
    match makePoints path c prec with
    | none => none
    | some (ns, refs, c1) =>
      match make_nodes_ways rest elev c1 prec with
      | none => none
      | some (ns2, ws2, c2) =>
        if refs.head? = refs.getLast? then
          some (ns ++ ns2,
            WayType.mk (refs.headD 0) (refs.length - 1) true elev :: ws2, c2)
        else
          some (ns ++ ns2,
            WayType.mk (refs.headD 0) refs.length false elev :: ws2, c2)

/-- The node-reference list built by the XML `Output._write_ways`
(`pyhgtmap/output/osmUtil.py`): `list(range(start, start + length))`, with
the first id appended again for a cycle. -/
def xmlNodeIds (startNodeId length : ℕ) (isCycle : Bool) : List ℕ :=
  let nodeIds := List.range' startNodeId length
  if isCycle then nodeIds ++ [nodeIds.headD 0] else nodeIds

/-- The per-contour part of the PBF `Output.writeNodes`
(`pyhgtmap/output/pbfUtil.py`): a closed contour loses its last point, the
remaining points are emitted as nodes zipped with consecutive ids, and one
`WayType` is prepared.  `none` models the `IndexError` on an empty contour. -/
def pbfContourWay (contour : List Point) (next_node_id : ℕ) (elevation : ℤ) :
    Option (List (ℕ × Point) × WayType × ℕ) :=
  match contour with
  | [] => none
  | _ :: _ =>
    if contour.head? = contour.getLast? then
      some ((List.range' next_node_id contour.dropLast.length).zip contour.dropLast,
        WayType.mk next_node_id contour.dropLast.length true elevation,
        next_node_id + contour.dropLast.length)
    else
      some ((List.range' next_node_id contour.length).zip contour,
        WayType.mk next_node_id contour.length false elevation,
        next_node_id + contour.length)

/-- The node list of the PBF `Output.writeWays`:
`list(range(first_node_id, first_node_id + nb_nodes))` plus the first id
again for a closed loop. -/
def pbfWayNodes (way : WayType) : List ℕ :=
  List.range' way.first_node_id way.nb_nodes
    ++ (if way.closed_loop then [way.first_node_id] else [])

theorem range'_concat_one (s n : ℕ) :
    List.range' s (n + 1) = List.range' s n ++ [s + n] := by
  have h : List.range' s (n + 1) 1 = List.range' s n 1 ++ [s + 1 * n] :=
    List.range'_concat s n
  simpa using h

theorem getLast?_append_ne {α : Type} (l1 l2 : List α) (h : l2 ≠ []) :
    (l1 ++ l2).getLast? = l2.getLast? := by
  rw [List.getLast?_append]
  rcases List.exists_cons_of_ne_nil h with ⟨a, t, rfl⟩
  cases hgl : (a :: t).getLast? with
  | none => simp at hgl
  | some b => simp

theorem range'_head? (s n : ℕ) (h : 0 < n) :
    (List.range' s n).head? = some s := by
  cases n with
  | zero => omega
  | succ n => simp [List.range'_succ]

theorem closed_path_getLast? (p0 : Point) (q : List Point) :
    (p0 :: (q ++ [p0])).getLast? = some p0 := by
  have h : p0 :: (q ++ [p0]) = (p0 :: q) ++ [p0] := by simp
  rw [h, List.getLast?_concat]

theorem makePoints_closed (p0 : Point) (q : List Point) (c : ℕ) (prec : ℤ)
    (hq : q ≠ []) :
    makePoints (p0 :: (q ++ [p0])) c prec
      = some ((p0 :: q).map (fun p => (pyInt (p.1 * prec), pyInt (p.2 * prec))),
          List.range' c (q.length + 1) ++ [c], c + (q.length + 1)) := by
  obtain ⟨a, t, rfl⟩ := List.exists_cons_of_ne_nil hq
  have hcond : (p0 :: (a :: (t ++ [p0]))).head?
      = (p0 :: (a :: (t ++ [p0]))).getLast? := by
    have h := closed_path_getLast? p0 (a :: t)
    simp only [List.cons_append] at h
    rw [h]
    rfl
  simp only [List.cons_append, makePoints]
  rw [if_pos hcond]
  have h1 : ((p0 :: a :: (t ++ [p0])).map
        (fun p => (pyInt (p.1 * prec), pyInt (p.2 * prec)))).dropLast
      = (p0 :: a :: t).map (fun p => (pyInt (p.1 * prec), pyInt (p.2 * prec))) := by
    have hs : p0 :: a :: (t ++ [p0]) = (p0 :: a :: t) ++ [p0] := by simp
    rw [hs, List.map_append, List.map_singleton, List.dropLast_concat]
  have h2 : (List.range' c (p0 :: a :: (t ++ [p0])).length).dropLast
      = List.range' c ((a :: t).length + 1) := by
    have hl : (p0 :: a :: (t ++ [p0])).length = ((a :: t).length + 1) + 1 := by
      simp
    rw [hl, range'_concat_one, List.dropLast_concat]
  have h3 : c + (p0 :: a :: (t ++ [p0])).length - 1
      = c + ((a :: t).length + 1) := by
    simp only [List.length_cons, List.length_append, List.length_nil]
    omega
  rw [h1, h2, h3]

theorem makePoints_open (path : List Point) (c : ℕ) (prec : ℤ)
    (h2 : 2 ≤ path.length) (hne : path.head? ≠ path.getLast?) :
    makePoints path c prec
      = some (path.map (fun p => (pyInt (p.1 * prec), pyInt (p.2 * prec))),
          List.range' c path.length, c + path.length) := by
  match path, h2 with
  | a :: b :: rest, _ =>
    simp only [makePoints]
    rw [if_neg hne]

theorem range'_headD (s n : ℕ) (h : 0 < n) : (List.range' s n).headD 0 = s := by
  cases n with
  | zero => omega
  | succ n =>
    rw [List.range'_succ]
    rfl

theorem refs_closed_head? (c n : ℕ) :
    (List.range' c (n + 1) ++ [c]).head? = some c := by
  rw [List.range'_succ]
  rfl

theorem refs_closed_getLast? (c n : ℕ) :
    (List.range' c (n + 1) ++ [c]).getLast? = some c :=
  List.getLast?_concat _

theorem refs_closed_headD (c n : ℕ) :
    (List.range' c (n + 1) ++ [c]).headD 0 = c := by
  rw [List.range'_succ]
  rfl

theorem make_nodes_ways_single_closed (p0 : Point) (q : List Point) (c : ℕ)
    (prec elev : ℤ) (hq : q ≠ []) :
    make_nodes_ways [p0 :: (q ++ [p0])] elev c prec
      = some ((p0 :: q).map (fun p => (pyInt (p.1 * prec), pyInt (p.2 * prec))),
          [WayType.mk c (q.length + 1) true elev], c + (q.length + 1)) := by
  simp only [make_nodes_ways, makePoints_closed p0 q c prec hq]
  rw [if_pos (by rw [refs_closed_head?, refs_closed_getLast?])]
  rw [refs_closed_headD]
  have hlen : (List.range' c (q.length + 1) ++ [c]).length - 1 = q.length + 1 := by
    simp
  rw [hlen, List.append_nil]

theorem pbfContourWay_closed (p0 : Point) (q : List Point) (next : ℕ)
    (elev : ℤ) :
    pbfContourWay (p0 :: (q ++ [p0])) next elev
      = some ((List.range' next (q.length + 1)).zip (p0 :: q),
          WayType.mk next (q.length + 1) true elev, next + (q.length + 1)) := by
  have hcl : (p0 :: (q ++ [p0])).head? = (p0 :: (q ++ [p0])).getLast? := by
    rw [closed_path_getLast?]
    rfl
  have hdl : (p0 :: (q ++ [p0])).dropLast = p0 :: q := by
    have hs : p0 :: (q ++ [p0]) = (p0 :: q) ++ [p0] := by simp
    rw [hs, List.dropLast_concat]
  simp only [pbfContourWay]
  rw [if_pos hcl, hdl]
  simp

theorem pbfContourWay_open (path : List Point) (next : ℕ) (elev : ℤ)
    (hne : path ≠ []) (hopen : path.head? ≠ path.getLast?) :
    pbfContourWay path next elev
      = some ((List.range' next path.length).zip path,
          WayType.mk next path.length false elev, next + path.length) := by
  obtain ⟨a, t, rfl⟩ := List.exists_cons_of_ne_nil hne
  simp only [pbfContourWay]
  rw [if_neg hopen]

/-- C2: for every traced closed path (first point equal to the last, with
`N = q.length + 1 ≥ 3` distinct interior points) every encoder emits exactly
`N` node elements with consecutive ids `c .. c+N−1` and builds the way's
node-reference list as `[c, …, c+N−1, c]`, whose first and last entries are
equal and whose length is `N + 1 ≥ 4`; every open path yields a reference
list `[c, …, c+L−1]` without repeated ids. -/
theorem c2_closed_contour_emission :
    (∀ (p0 : Point) (q : List Point) (c : ℕ) (prec elev : ℤ),
      2 ≤ q.length → (p0 :: q).Nodup →
      (makePoints (p0 :: (q ++ [p0])) c prec
          = some ((p0 :: q).map (fun p => (pyInt (p.1 * prec), pyInt (p.2 * prec))),
              List.range' c (q.length + 1) ++ [c], c + (q.length + 1))
        ∧ ((p0 :: q).map (fun p => (pyInt (p.1 * prec), pyInt (p.2 * prec)))).length
            = q.length + 1
        ∧ make_nodes_ways [p0 :: (q ++ [p0])] elev c prec
            = some ((p0 :: q).map (fun p => (pyInt (p.1 * prec), pyInt (p.2 * prec))),
                [WayType.mk c (q.length + 1) true elev], c + (q.length + 1))
        ∧ pbfContourWay (p0 :: (q ++ [p0])) c elev
            = some ((List.range' c (q.length + 1)).zip (p0 :: q),
                WayType.mk c (q.length + 1) true elev, c + (q.length + 1))
        ∧ xmlNodeIds c (q.length + 1) true = List.range' c (q.length + 1) ++ [c]
        ∧ pbfWayNodes (WayType.mk c (q.length + 1) true elev)
            = List.range' c (q.length + 1) ++ [c]
        ∧ (List.range' c (q.length + 1) ++ [c]).head? = some c
        ∧ (List.range' c (q.length + 1) ++ [c]).getLast? = some c
        ∧ (List.range' c (q.length + 1) ++ [c]).length = q.length + 2
        ∧ 4 ≤ (List.range' c (q.length + 1) ++ [c]).length))
    ∧ (∀ (path : List Point) (c : ℕ) (prec elev : ℤ),
      2 ≤ path.length → path.head? ≠ path.getLast? →
      (makePoints path c prec
          = some (path.map (fun p => (pyInt (p.1 * prec), pyInt (p.2 * prec))),
              List.range' c path.length, c + path.length)
        ∧ (List.range' c path.length).Nodup
        ∧ xmlNodeIds c path.length false = List.range' c path.length
        ∧ pbfWayNodes (WayType.mk c path.length false elev)
            = List.range' c path.length
        ∧ pbfContourWay path c elev
            = some ((List.range' c path.length).zip path,
                WayType.mk c path.length false elev, c + path.length))) := by
  constructor
  · intro p0 q c prec elev hlen _hnodup
    have hq : q ≠ [] := by
      intro h
      rw [h] at hlen
      simp at hlen
    refine ⟨makePoints_closed p0 q c prec hq, by simp,
      make_nodes_ways_single_closed p0 q c prec elev hq,
      pbfContourWay_closed p0 q c elev, ?_, ?_,
      refs_closed_head? c q.length, refs_closed_getLast? c q.length,
      by simp, by simp; omega⟩
    · unfold xmlNodeIds
      rw [if_pos rfl, range'_headD c (q.length + 1) (by omega)]
    · unfold pbfWayNodes
      rfl
  · intro path c prec elev hlen hopen
    have hne : path ≠ [] := by
      intro h
      rw [h] at hlen
      simp at hlen
    refine ⟨makePoints_open path c prec hlen hopen,
      List.nodup_range' c path.length 1 (by norm_num), ?_, ?_,
      pbfContourWay_open path c elev hne hopen⟩
    · unfold xmlNodeIds
      rw [if_neg (by simp)]
    · unfold pbfWayNodes
      simp

theorem c2_closed_contour_emission_witness :
    (2 ≤ [((1 : ℚ), (0 : ℚ)), (1, 1)].length
      ∧ ([((0 : ℚ), (0 : ℚ)), (1, 0), (1, 1)]).Nodup
      ∧ xmlNodeIds 1000 ([((1 : ℚ), (0 : ℚ)), (1, 1)].length + 1) true
          = List.range' 1000 ([((1 : ℚ), (0 : ℚ)), (1, 1)].length + 1) ++ [1000])
    ∧ (2 ≤ [((0 : ℚ), (0 : ℚ)), (1, 0)].length
      ∧ ([((0 : ℚ), (0 : ℚ)), (1, 0)]).head?
          ≠ ([((0 : ℚ), (0 : ℚ)), (1, 0)]).getLast?
      ∧ (List.range' 1000 [((0 : ℚ), (0 : ℚ)), (1, 0)].length).Nodup) := by
  refine ⟨⟨by simp, by decide, ?_⟩, ⟨by simp, by decide, ?_⟩⟩
  · exact ((c2_closed_contour_emission.1 (0, 0) [(1, 0), (1, 1)] 1000 10000000 50
      (by simp) (by decide)).2.2.2.2.1)
  · exact ((c2_closed_contour_emission.2 [((0 : ℚ), (0 : ℚ)), (1, 0)] 1000
      10000000 50 (by simp) (by decide)).2.1)

/-! ## O5M encoder (`pyhgtmap/output/o5mUtil.py`)

The encoder state holds the bytes written so far (`self.outf`), the way-id
delta base `self.lastNodeId`, the LRU string table and the inherited
`ways_pending_write` buffer.  Byte emission is factored into functions
returning the emitted bytes plus the updated table/delta base, mirroring the
source's `make*` helpers; the `write*` methods append to the stream. -/

/-- `HUNDREDNANO = 10000000` (1e7, 100-nanodegree scale). -/
def HUNDREDNANO : ℤ := 10000000

/-- UTF-8 bytes of an ASCII string. -/
def ascii (s : String) : List ℕ := s.data.map Char.toNat

/-- Fixed configuration of an O5M output. -/
structure O5mCfg where
  writeTimestamp : Bool
  timestamp : ℤ
  major : ℤ
  medium : ℤ

/-- Mutable state of an O5M output. -/
structure O5mState where
  outBytes : List ℕ
  lastNodeId : ℤ
  table : List (List ℕ)
  pending : List (List WayType × ℤ)

/-- `Output.makeStringPair`: `\x00 key \x00 value \x00`. -/
def makeStringPair (a b : String) : List ℕ :=
  [0] ++ ascii a ++ [0] ++ ascii b ++ [0]

/-- `StringTable.stringOrIndex`: strings over 250 bytes bypass the table; a
string already in the table is replaced by `int2str` of its back-distance;
otherwise it is appended (dropping the oldest entry past 15000) and emitted
literally. -/
def stringOrIndex (table : List (List ℕ)) (s : List ℕ) :
    List (List ℕ) × List ℕ :=
  if 250 < s.length then (table, s)
  else if s ∈ table then
    (table, int2str (table.length - table.indexOf s))
  else if (table ++ [s]).length = 15001 then ((table ++ [s]).drop 1, s)
  else (table ++ [s], s)

/-- `Output.writeReset`: emit `0xFF`, reset the delta base and string table. -/
def writeReset (st : O5mState) : O5mState :=
  { st with outBytes := st.outBytes ++ [0xFF], lastNodeId := 0, table := [] }

/-- `Output.makeTimestampDataset`: `0xDC, len, sint2str(timestamp)`. -/
def makeTimestampDataset (timestamp : ℤ) : List ℕ :=
  [0xDC] ++ int2str (sint2str timestamp).length ++ sint2str timestamp

/-- `Output.makeBBoxDataset`: `0xDB, len, 4 × sint2str(int(coord * 1e7))`. -/
def makeBBoxDataset (bbox : ℚ × ℚ × ℚ × ℚ) : List ℕ :=
  [0xDB]
    ++ int2str (sint2str (pyInt (bbox.1 * (HUNDREDNANO : ℚ)))
        ++ sint2str (pyInt (bbox.2.1 * (HUNDREDNANO : ℚ)))
        ++ sint2str (pyInt (bbox.2.2.1 * (HUNDREDNANO : ℚ)))
        ++ sint2str (pyInt (bbox.2.2.2 * (HUNDREDNANO : ℚ)))).length
    ++ sint2str (pyInt (bbox.1 * (HUNDREDNANO : ℚ)))
    ++ sint2str (pyInt (bbox.2.1 * (HUNDREDNANO : ℚ)))
    ++ sint2str (pyInt (bbox.2.2.1 * (HUNDREDNANO : ℚ)))
    ++ sint2str (pyInt (bbox.2.2.2 * (HUNDREDNANO : ℚ)))

/-- `Output.writeHeader`: a reset byte, the `0xE0 0x04 "o5m2"` file-format
dataset, the timestamp dataset and the bbox dataset. -/
def writeHeader (cfg : O5mCfg) (bbox : ℚ × ℚ × ℚ × ℚ) (st : O5mState) :
    O5mState :=
  match writeReset st with
  | st1 =>
    { st1 with outBytes := st1.outBytes ++ [0xE0, 0x04] ++ ascii ("o5m2")
        ++ makeTimestampDataset cfg.timestamp ++ makeBBoxDataset bbox }

/-- A freshly constructed O5M output (`Output.__init__` ends by calling
`writeHeader`). -/
def newO5mOutput (cfg : O5mCfg) (bbox : ℚ × ℚ × ℚ × ℚ) : O5mState :=
  writeHeader cfg bbox ⟨[], 0, [], []⟩

/-- `Output.makeVersionChunk`: version 1, delta-coded timestamp (and, when
timestamps are written, a delta-coded changeset and the empty user string
pair through the string table). -/
def makeVersionChunk (cfg : O5mCfg) (first : Bool) (table : List (List ℕ)) :
    List ℕ × List (List ℕ) :=
  if cfg.writeTimestamp then
    match stringOrIndex table [0, 0, 0] with
    | (t', d4) =>
      (int2str 1
        ++ (if first then sint2str cfg.timestamp else sint2str 0)
        ++ (if first then sint2str 1 else sint2str 0) ++ d4, t')
  else (int2str 1 ++ sint2str 0, table)

/-- `Output.makeNodeData` plus the `0x10, len` framing of `writeNode`. -/
def writeNodeBytes (cfg : O5mCfg) (node : ℤ × ℤ) (lastNode : Option (ℤ × ℤ))
    (idDelta : ℤ) (table : List (List ℕ)) : List ℕ × List (List ℕ) :=
  match makeVersionChunk cfg (lastNode.isNone) table with
  | (vc, t') =>
    match lastNode with
    | some ln =>
      ([0x10] ++ int2str (sint2str idDelta ++ vc
          ++ sint2str (node.1 - ln.1) ++ sint2str (node.2 - ln.2)).length
        ++ sint2str idDelta ++ vc
        ++ sint2str (node.1 - ln.1) ++ sint2str (node.2 - ln.2), t')
    | none =>
      ([0x10] ++ int2str (sint2str idDelta ++ vc
          ++ sint2str node.1 ++ sint2str node.2).length
        ++ sint2str idDelta ++ vc
        ++ sint2str node.1 ++ sint2str node.2, t')

/-- The loop of `writeNodesO5m` over the nodes after the first: each node is
delta-coded against its predecessor with `idDelta = 1`. -/
def nodeStreamLoop (cfg : O5mCfg) (prev : ℤ × ℤ) (rest : List (ℤ × ℤ))
    (table : List (List ℕ)) : List ℕ × List (List ℕ) :=
  match rest with
  | [] => ([], table)
  | n :: ns =>
    match writeNodeBytes cfg n (some prev) 1 table with
    | (b, t') =>
      match nodeStreamLoop cfg n ns t' with
      | (bs, t'') => (b ++ bs, t'')

/-- `Output.writeNodesO5m`: nothing for an empty node list; otherwise a
reset, the first node with `idDelta = startNodeId`, then the rest
delta-coded. -/
def writeNodesO5m (cfg : O5mCfg) (nodes : List (ℤ × ℤ)) (startNodeId : ℤ)
    (st : O5mState) : O5mState :=
  match nodes with
  | [] => st
  | n0 :: rest =>
    match writeReset st with
    | st1 =>
      match writeNodeBytes cfg n0 none startNodeId st1.table with
      | (b0, t0) =>
        match nodeStreamLoop cfg n0 rest t0 with
        | (bs, t1) =>
          { st1 with outBytes := st1.outBytes ++ b0 ++ bs, table := t1 }

/-- `Output.makeWayReferenceSection`: the first node id delta-coded against
`lastNodeId`, then `length − 1` deltas of `1`, then `-(length − 1)` for a
cycle; returns the refsec bytes and the new `lastNodeId`. -/
def makeWayReferenceSection (lastNodeId : ℤ) (startNodeId : ℤ) (length : ℕ)
    (isCycle : Bool) : List ℕ × ℤ :=
  (((([startNodeId - lastNodeId] ++ List.replicate (length - 1) (1 : ℤ)
      ++ (if isCycle then [-((length : ℤ) - 1)] else [])).map sint2str).flatten),
    if isCycle then startNodeId else startNodeId + (length : ℤ) - 1)

/-- `Output.makeWayData` plus the `0x11, len` framing of `writeWay`: way id
delta, version chunk, refsec with its length, then the three tags through
the string table. -/
def writeWayBytes (cfg : O5mCfg) (way : WayType) (idDelta : ℤ) (first : Bool)
    (lastNodeId : ℤ) (table : List (List ℕ)) :
    List ℕ × ℤ × List (List ℕ) :=
  match makeVersionChunk cfg first table with
  | (vc, t1) =>
    match makeWayReferenceSection lastNodeId (way.first_node_id : ℤ)
        way.nb_nodes way.closed_loop with
    | (refsec, last') =>
      match stringOrIndex t1 (makeStringPair ("ele") (toString way.elevation)) with
      | (t2, b1) =>
        match stringOrIndex t2 (makeStringPair ("contour") ("elevation")) with
        | (t3, b2) =>
          match stringOrIndex t3 (makeStringPair ("contour_ext")
              (classify cfg.major cfg.medium way.elevation)) with
          | (t4, b3) =>
            ([0x11] ++ int2str (sint2str idDelta ++ vc
                ++ int2str refsec.length ++ refsec ++ b1 ++ b2 ++ b3).length
              ++ sint2str idDelta ++ vc
              ++ int2str refsec.length ++ refsec ++ b1 ++ b2 ++ b3,
              last', t4)

/-- The loop of `_write_ways` over the ways after the first
(`idDelta = 1`, not first). -/
def wayStreamLoop (cfg : O5mCfg) (ways : List WayType) (lastNodeId : ℤ)
    (table : List (List ℕ)) : List ℕ × ℤ × List (List ℕ) :=
  match ways with
  | [] => ([], lastNodeId, table)
  | w :: ws =>
    match writeWayBytes cfg w 1 false lastNodeId table with
    | (b, l', t') =>
      match wayStreamLoop cfg ws l' t' with
      | (bs, l'', t'') => (b ++ bs, l'', t'')

/-- `Output._write_ways` (O5M): nothing for an empty way list; otherwise a
reset byte, the first way with `idDelta = startWayId`, then the rest. -/
def o5mWriteWays (cfg : O5mCfg) (ways : List WayType) (startWayId : ℤ)
    (st : O5mState) : O5mState :=
  match ways with
  | [] => st
  | w0 :: rest =>
    match writeReset st with
    | st1 =>
      match writeWayBytes cfg w0 startWayId true st1.lastNodeId st1.table with
      | (b0, l0, t0) =>
        match wayStreamLoop cfg rest l0 t0 with
        | (bs, l1, t1) =>
          { st1 with
              outBytes := st1.outBytes ++ b0 ++ bs
              lastNodeId := l1
              table := t1 }

/-- The inherited `Output.write_ways`: batches are buffered, not written. -/
def o5mBufferWays (st : O5mState) (ways : List WayType) (startWayId : ℤ) :
    O5mState :=
  { st with pending := st.pending ++ [(ways, startWayId)] }

/-- `Output.done` (O5M): flush every buffered batch through `_write_ways`
(base class `done`), then append the EOF byte `0xFE`. -/
def o5mDone (cfg : O5mCfg) (st : O5mState) : O5mState :=
  match st.pending.foldl (fun s b => o5mWriteWays cfg b.1 b.2 s) st with
  | st1 => { st1 with outBytes := st1.outBytes ++ [0xFE] }

/-- C7: for every way, the refsec equals
`sint2str(first_node_id − last_emitted_node_id)` followed by `L − 1` copies
of `sint2str 1`, with `sint2str (−(L−1))` appended iff the way is closed;
afterwards the delta base is `first_node_id` for a closed way and
`first_node_id + L − 1` for an open one. -/
theorem c7_way_reference_section (last start : ℤ) (L : ℕ) (closed : Bool) :
    makeWayReferenceSection last start L closed
      = (sint2str (start - last)
          ++ (List.replicate (L - 1) (sint2str 1)).flatten
          ++ (if closed then sint2str (-((L : ℤ) - 1)) else []),
        if closed then start else start + (L : ℤ) - 1) := by
  unfold makeWayReferenceSection
  cases closed <;>
    simp [List.map_append, List.flatten_append, List.map_replicate]

/-- C6: a freshly opened O5M output with bbox `(1,2,3,4)` and timestamp `T`
emits exactly `FF, E0 04 "o5m2", DC <len> <sint T>, DB <len> <sint 1e7>
<sint 2e7> <sint 3e7> <sint 4e7>`; a non-empty node stream is preceded by a
reset byte `FF` after which the emitted bytes (and final string table) are
independent of the previous encoder state, and the delta base is left at 0;
`done()` appends the trailing EOF byte `FE`. -/
theorem c6_o5m_stream_framing :
    (∀ cfg : O5mCfg,
      (newO5mOutput cfg ((1 : ℚ), (2 : ℚ), (3 : ℚ), (4 : ℚ))).outBytes
        = [0xFF, 0xE0, 0x04] ++ ascii ("o5m2")
          ++ ([0xDC] ++ int2str (sint2str cfg.timestamp).length
              ++ sint2str cfg.timestamp)
          ++ ([0xDB] ++ int2str (sint2str 10000000 ++ sint2str 20000000
                ++ sint2str 30000000 ++ sint2str 40000000).length
              ++ sint2str 10000000 ++ sint2str 20000000
              ++ sint2str 30000000 ++ sint2str 40000000))
    ∧ (∀ (cfg : O5mCfg) (nodes : List (ℤ × ℤ)) (start : ℤ) (st st' : O5mState),
        nodes ≠ [] →
        ∃ tail,
          (writeNodesO5m cfg nodes start st).outBytes
              = st.outBytes ++ 0xFF :: tail
          ∧ (writeNodesO5m cfg nodes start st').outBytes
              = st'.outBytes ++ 0xFF :: tail
          ∧ (writeNodesO5m cfg nodes start st).lastNodeId = 0
          ∧ (writeNodesO5m cfg nodes start st).table
              = (writeNodesO5m cfg nodes start st').table)
    ∧ (∀ (cfg : O5mCfg) (st : O5mState),
        (o5mDone cfg st).outBytes.getLast? = some 0xFE) := by
  refine ⟨?_, ?_, ?_⟩
  · intro cfg
    have hbb : makeBBoxDataset ((1 : ℚ), (2 : ℚ), (3 : ℚ), (4 : ℚ))
        = [0xDB] ++ int2str (sint2str 10000000 ++ sint2str 20000000
              ++ sint2str 30000000 ++ sint2str 40000000).length
            ++ sint2str 10000000 ++ sint2str 20000000
            ++ sint2str 30000000 ++ sint2str 40000000 := by
      have h1 : pyInt ((1 : ℚ) * (HUNDREDNANO : ℚ)) = 10000000 := by
        norm_num [pyInt, HUNDREDNANO]
      have h2 : pyInt ((2 : ℚ) * (HUNDREDNANO : ℚ)) = 20000000 := by
        norm_num [pyInt, HUNDREDNANO]
      have h3 : pyInt ((3 : ℚ) * (HUNDREDNANO : ℚ)) = 30000000 := by
        norm_num [pyInt, HUNDREDNANO]
      have h4 : pyInt ((4 : ℚ) * (HUNDREDNANO : ℚ)) = 40000000 := by
        norm_num [pyInt, HUNDREDNANO]
      unfold makeBBoxDataset
      rw [h1, h2, h3, h4]
    unfold newO5mOutput writeHeader writeReset makeTimestampDataset
    rw [hbb]
    simp only [List.append_assoc, List.cons_append, List.nil_append]
  · intro cfg nodes start st st' hne
    obtain ⟨n0, rest, rfl⟩ := List.exists_cons_of_ne_nil hne
    refine ⟨(writeNodeBytes cfg n0 none start []).1
        ++ (nodeStreamLoop cfg n0 rest
            (writeNodeBytes cfg n0 none start []).2).1, ?_, ?_, ?_, ?_⟩ <;>
      simp only [writeNodesO5m, writeReset, List.append_assoc,
        List.cons_append, List.nil_append]
  · intro cfg st
    unfold o5mDone
    simp only [List.getLast?_concat]

theorem c6_o5m_stream_framing_witness :
    ([((5 : ℤ), (6 : ℤ))] : List (ℤ × ℤ)) ≠ []
    ∧ ∃ tail,
        (writeNodesO5m ⟨false, 0, 200, 100⟩ [((5 : ℤ), (6 : ℤ))] 7
            (newO5mOutput ⟨false, 0, 200, 100⟩ (1, 2, 3, 4))).outBytes
          = (newO5mOutput ⟨false, 0, 200, 100⟩ (1, 2, 3, 4)).outBytes
              ++ 0xFF :: tail
        ∧ (writeNodesO5m ⟨false, 0, 200, 100⟩ [((5 : ℤ), (6 : ℤ))] 7
            (⟨[], 3, [[1]], []⟩ : O5mState)).outBytes
          = (⟨[], 3, [[1]], []⟩ : O5mState).outBytes ++ 0xFF :: tail
        ∧ (writeNodesO5m ⟨false, 0, 200, 100⟩ [((5 : ℤ), (6 : ℤ))] 7
            (newO5mOutput ⟨false, 0, 200, 100⟩ (1, 2, 3, 4))).lastNodeId = 0
        ∧ (writeNodesO5m ⟨false, 0, 200, 100⟩ [((5 : ℤ), (6 : ℤ))] 7
            (newO5mOutput ⟨false, 0, 200, 100⟩ (1, 2, 3, 4))).table
          = (writeNodesO5m ⟨false, 0, 200, 100⟩ [((5 : ℤ), (6 : ℤ))] 7
            (⟨[], 3, [[1]], []⟩ : O5mState)).table := by
  refine ⟨by simp, ?_⟩
  exact c6_o5m_stream_framing.2.1 ⟨false, 0, 200, 100⟩ [((5 : ℤ), (6 : ℤ))] 7
    (newO5mOutput ⟨false, 0, 200, 100⟩ (1, 2, 3, 4))
    (⟨[], 3, [[1]], []⟩ : O5mState) (by simp)

/-! ## PBF encoder buffering (`pyhgtmap/output/pbfUtil.py`)

The osmium `SimpleWriter` is modelled by the list of way objects handed to
it.  `pbfUtil.Output` inherits `write_ways` (which appends the batch to
`ways_pending_write`) but its `done()` merely closes the writer: it calls
neither the base-class `done()` nor any `_write_ways`, so buffered batches
are never written.  (In the source the situation is even worse:
`pbfUtil.Output.__init__` does not call `super().__init__()`, so
`write_ways` raises `AttributeError`; the model charitably assumes the
buffer exists.) -/

/-- State of a PBF output: ways added to the osmium writer, whether the
writer has been closed, and the inherited pending-ways buffer. -/
structure PbfState where
  added_ways : List (ℕ × WayType)
  closed : Bool
  pending : List (List WayType × ℕ)

/-- `pbfUtil.Output.writeWays` (camel case, never called by the processor):
adds each way with id `startWayId + index` directly to the writer. -/
def pbfWriteWaysDirect (ways : List WayType) (startWayId : ℕ)
    (st : PbfState) : PbfState :=
  { st with added_ways := st.added_ways
      ++ (List.range' startWayId ways.length).zip ways }

/-- The inherited `Output.write_ways`: buffer the batch. -/
def pbfWriteWays (st : PbfState) (ways : List WayType) (startWayId : ℕ) :
    PbfState :=
  { st with pending := st.pending ++ [(ways, startWayId)] }

/-- `pbfUtil.Output.done`: `self.osm_writer.close()` — nothing else; the
pending buffer is not flushed. -/
def pbfDone (st : PbfState) : PbfState :=
  { st with closed := true }

/-- C9 (code bug, PBF): a batch passed to the inherited `write_ways` is
buffered, but `done()` only closes the writer, so no buffered way is ever
added to the output — contradicting the spec and the repository's own
`tests/test_output.py::test_produce_pbf`. -/
theorem c9_pbf_done_drops_buffered_ways
    (st : PbfState) (ways : List WayType) (startWayId : ℕ) :
    (pbfDone (pbfWriteWays st ways startWayId)).added_ways = st.added_ways
    ∧ (pbfDone (pbfWriteWays st ways startWayId)).closed = true
    ∧ (pbfDone (pbfWriteWays st ways startWayId)).pending
        = st.pending ++ [(ways, startWayId)] :=
  ⟨rfl, rfl, rfl⟩

/-! ## Tile chopper (`chop_data` in `pyhgtmap/hgt/file.py`)

Grids are lists of rows; a cell is `none` when void (masked).  The masked
array is filled with NaN before the estimate, and `numpy.nansum` drops any
difference involving a void cell, so only pairs of non-void neighbours
contribute.  `chop_data` is recursive in the source; the embedding uses
explicit fuel, `none` meaning the recursion did not complete within the
given depth. -/

/-- A void-able elevation sample. -/
abbrev Cell := Option ℚ

/-- A raster grid: rows (top first) of cells. -/
abbrev Grid := List (List Cell)

/-- Bounding box `(min_lon, min_lat, max_lon, max_lat)`. -/
structure BBox where
  min_lon : ℚ
  min_lat : ℚ
  max_lon : ℚ
  max_lat : ℚ

/-- Contribution of one neighbouring pair to the node estimate:
`|a/step − b/step|`, or 0 when either sample is void (NaN-filled values
are dropped by `numpy.nansum`). -/
def diffAbs (step : ℚ) : Cell → Cell → ℚ
  | some a, some b => |a / step - b / step|
  | _, _ => 0

/-- `estim_num_of_nodes`: sum of the absolute first differences of the
step-scaled grid, horizontally and vertically. -/
def estim_num_of_nodes (step : ℚ) (g : Grid) : ℚ :=
  (g.map (fun r => ((r.zip r.tail).map (fun p => diffAbs step p.1 p.2)).sum)).sum
    + ((g.zip g.tail).map
        (fun rr => ((rr.1.zip rr.2).map (fun p => diffAbs step p.1 p.2)).sum)).sum

/-- `too_many_nodes`: `maxNodes = 0` means "never chop"; otherwise compare
the estimate against the budget. -/
def too_many_nodes (step maxNodes : ℚ) (g : Grid) : Bool :=
  if maxNodes = 0 then false
  else decide (maxNodes < estim_num_of_nodes step g)

/-- The fully-void quick discard: `numpy.unique(mask) == [True]`, i.e. the
grid has at least one cell and every cell is void. -/
def fullyVoid (g : Grid) : Bool :=
  !(g.flatten.isEmpty) && g.flatten.all (fun c => c.isNone)

/-- `get_chops`: split at row `⌊R/2⌋`; the lower chop keeps the rows from
the cut (inclusive) down, the upper chop the rows up to the cut
(inclusive), the shared row being duplicated; the cut latitude is
`max_lat − ⌊R/2⌋·lat_inc`. -/
def get_chops (latInc : ℚ) (bbox : BBox) (g : Grid) :
    (BBox × Grid) × (BBox × Grid) :=
  ((⟨bbox.min_lon, bbox.min_lat, bbox.max_lon,
      bbox.max_lat - (g.length / 2 : ℕ) * latInc⟩, g.drop (g.length / 2)),
   (⟨bbox.min_lon, bbox.max_lat - (g.length / 2 : ℕ) * latInc, bbox.max_lon,
      bbox.max_lat⟩, g.take (g.length / 2 + 1)))

/-- `chop_data` with explicit fuel: discard fully-void grids, emit a grid
within budget, otherwise chop and recurse (lower chop first, as in the
source's loop over `get_chops`). -/
def chop_data (step maxNodes latInc : ℚ) :
    ℕ → BBox → Grid → Option (List (BBox × Grid))
  | 0, _, _ => none
  | fuel + 1, bbox, g =>
    if fullyVoid g then some []
    else if too_many_nodes step maxNodes g then
      match chop_data step maxNodes latInc fuel
          (get_chops latInc bbox g).1.1 (get_chops latInc bbox g).1.2 with
      | none => none
      | some l1 =>
        match chop_data step maxNodes latInc fuel
            (get_chops latInc bbox g).2.1 (get_chops latInc bbox g).2.2 with
        | none => none
        | some l2 => some (l1 ++ l2)
    else some [(bbox, g)]

theorem too_many_nodes_false_iff (step B : ℚ) (g : Grid) (hB : B ≠ 0) :
    too_many_nodes step B g = false ↔ estim_num_of_nodes step g ≤ B := by
  simp [too_many_nodes, hB, not_lt]

theorem too_many_nodes_true_iff (step B : ℚ) (g : Grid) (hB : B ≠ 0) :
    too_many_nodes step B g = true ↔ B < estim_num_of_nodes step g := by
  simp [too_many_nodes, hB]

theorem chop_data_total (step B latInc : ℚ) (hB : 0 < B) :
    ∀ (R : ℕ) (g : Grid), g.length ≤ R →
      (∀ i n, n ≤ 2 → estim_num_of_nodes step ((g.drop i).take n) ≤ B) →
      ∀ bbox : BBox, ∃ l,
        (∀ fuel, R + 1 ≤ fuel →
          chop_data step B latInc fuel bbox g = some l)
        ∧ ∀ p ∈ l, estim_num_of_nodes step p.2 ≤ B := by
  intro R
  induction R using Nat.strong_induction_on with
  | _ R ih =>
    intro g hgR hslab bbox
    by_cases hfv : fullyVoid g = true
    · refine ⟨[], fun fuel hf => ?_, by simp⟩
      obtain ⟨f, rfl⟩ : ∃ f, fuel = f + 1 := ⟨fuel - 1, by omega⟩
      simp [chop_data, hfv]
    · by_cases htm : too_many_nodes step B g = true
      · have hlen3 : 3 ≤ g.length := by
          by_contra hlt
          push_neg at hlt
          have hg : (g.drop 0).take g.length = g := by simp
          have hest := hslab 0 g.length (by omega)
          rw [hg] at hest
          rw [too_many_nodes_true_iff step B g (by positivity)] at htm
          exact absurd hest (by exact not_le.mpr htm)
        have hRge : 3 ≤ R := by omega
        -- lower chop: rows from ⌊R/2⌋ down
        have hlow := ih (R - 1) (by omega) (g.drop (g.length / 2))
          (by simp; omega)
          (by
            intro i n hn
            rw [List.drop_drop]
            exact hslab (g.length / 2 + i) n hn)
          ⟨bbox.min_lon, bbox.min_lat, bbox.max_lon,
            bbox.max_lat - (g.length / 2 : ℕ) * latInc⟩
        -- upper chop: rows up to ⌊R/2⌋ (inclusive)
        have hup := ih (R - 1) (by omega) (g.take (g.length / 2 + 1))
          (by simp; omega)
          (by
            intro i n hn
            rw [List.drop_take, List.take_take]
            exact hslab i (min n (g.length / 2 + 1 - i)) (by omega))
          ⟨bbox.min_lon, bbox.max_lat - (g.length / 2 : ℕ) * latInc,
            bbox.max_lon, bbox.max_lat⟩
        obtain ⟨l1, hl1, hl1p⟩ := hlow
        obtain ⟨l2, hl2, hl2p⟩ := hup
        refine ⟨l1 ++ l2, fun fuel hf => ?_, fun p hp => ?_⟩
        · obtain ⟨f, rfl⟩ : ∃ f, fuel = f + 1 := ⟨fuel - 1, by omega⟩
          simp only [chop_data, hfv, htm, get_chops, Bool.false_eq_true,
            if_false, if_true]
          rw [hl1 f (by omega), hl2 f (by omega)]
        · rcases List.mem_append.mp hp with h | h
          · exact hl1p p h
          · exact hl2p p h
      · refine ⟨[(bbox, g)], fun fuel hf => ?_, ?_⟩
        · obtain ⟨f, rfl⟩ : ∃ f, fuel = f + 1 := ⟨fuel - 1, by omega⟩
          simp [chop_data, hfv, htm]
        · intro p hp
          simp only [List.mem_singleton] at hp
          subst hp
          exact (too_many_nodes_false_iff step B g (by positivity)).mp
            (by simpa using htm)

/-- C4 (amended): whenever every horizontal slab of at most two rows of the
grid fits the budget, the recursive chop terminates (with a result
independent of any sufficiently large recursion bound) and every emitted
piece satisfies `estimate ≤ B`. -/
theorem c4_chopper_termination_amended (step B latInc : ℚ) (bbox : BBox)
    (g : Grid) (hB : 0 < B)
    (hslab : ∀ i n, n ≤ 2 → estim_num_of_nodes step ((g.drop i).take n) ≤ B) :
    ∃ l, (∀ fuel, g.length + 1 ≤ fuel →
        chop_data step B latInc fuel bbox g = some l)
      ∧ ∀ p ∈ l, estim_num_of_nodes step p.2 ≤ B :=
  chop_data_total step B latInc hB g.length g le_rfl hslab bbox

theorem estim_one_row_100 :
    estim_num_of_nodes 1 [[some (0 : ℚ), some 100]] = 100 := by
  norm_num [estim_num_of_nodes, diffAbs]

theorem estim_two_rows_200 :
    estim_num_of_nodes 1
      [[some (0 : ℚ), some 100], [some (0 : ℚ), some 100]] = 200 := by
  norm_num [estim_num_of_nodes, diffAbs]

theorem chop_data_one_row_diverges :
    ∀ (fuel : ℕ) (bbox : BBox),
      chop_data 1 1 1 fuel bbox [[some (0 : ℚ), some 100]] = none := by
  intro fuel
  induction fuel with
  | zero => intro bbox; rfl
  | succ fuel ih =>
    intro bbox
    have hfv : fullyVoid [[some (0 : ℚ), some 100]] = false := by
      simp [fullyVoid]
    have htm : too_many_nodes 1 1 [[some (0 : ℚ), some 100]] = true := by
      rw [too_many_nodes_true_iff _ _ _ (by norm_num), estim_one_row_100]
      norm_num
    simp only [chop_data, hfv, htm, get_chops, Bool.false_eq_true,
      if_false, if_true, List.length_cons, List.length_nil]
    rw [show (0 + 1) / 2 = 0 from rfl, List.drop_zero, ih]

theorem chop_data_two_rows_diverges :
    ∀ (fuel : ℕ) (bbox : BBox),
      chop_data 1 1 1 fuel bbox
        [[some (0 : ℚ), some 100], [some (0 : ℚ), some 100]] = none := by
  intro fuel bbox
  cases fuel with
  | zero => rfl
  | succ fuel =>
    have hfv : fullyVoid
        [[some (0 : ℚ), some 100], [some (0 : ℚ), some 100]] = false := by
      simp [fullyVoid]
    have htm : too_many_nodes 1 1
        [[some (0 : ℚ), some 100], [some (0 : ℚ), some 100]] = true := by
      rw [too_many_nodes_true_iff _ _ _ (by norm_num), estim_two_rows_200]
      norm_num
    simp only [chop_data, hfv, htm, get_chops, Bool.false_eq_true,
      if_false, if_true, List.length_cons, List.length_nil]
    rw [show (0 + 1 + 1) / 2 = 1 from rfl]
    rw [show ([[some (0 : ℚ), some 100], [some (0 : ℚ), some 100]].drop 1)
        = [[some (0 : ℚ), some 100]] from rfl]
    rw [chop_data_one_row_diverges fuel _]

/-- C4 counterexample: on the 2×2 grid `[[0,100],[0,100]]` with `step = 1`
and budget `B = 1 > 0` the recursive chop never completes, for any recursion
depth: the upper chop of a 2-row slab is the slab itself, so the recursion
loops forever.  This refutes "for every finite grid and every budget B > 0
the recursive chop terminates". -/
theorem c4_counterexample_chop_nontermination :
    ¬ ∃ (fuel : ℕ) (l : List (BBox × Grid)),
        chop_data 1 1 1 fuel ⟨0, 0, 1, 1⟩
          [[some (0 : ℚ), some 100], [some (0 : ℚ), some 100]] = some l := by
  rintro ⟨fuel, l, h⟩
  rw [chop_data_two_rows_diverges fuel _] at h
  exact Option.noConfusion h

theorem c4_chopper_termination_amended_witness :
    (0 : ℚ) < 1
    ∧ ∃ l, (∀ fuel,
        ([[some (0 : ℚ), some 0], [some (0 : ℚ), some 0]] : Grid).length + 1
            ≤ fuel →
        chop_data 1 1 1 fuel ⟨0, 0, 1, 1⟩
          [[some (0 : ℚ), some 0], [some (0 : ℚ), some 0]] = some l)
      ∧ ∀ p ∈ l, estim_num_of_nodes 1 p.2 ≤ 1 := by
  refine ⟨by norm_num, ?_⟩
  apply c4_chopper_termination_amended 1 1 1 ⟨0, 0, 1, 1⟩
    [[some (0 : ℚ), some 0], [some (0 : ℚ), some 0]] (by norm_num)
  intro i n hn
  match i, n, hn with
  | 0, 0, _ => norm_num [estim_num_of_nodes]
  | 0, 1, _ => norm_num [estim_num_of_nodes, diffAbs]
  | 0, 2, _ => norm_num [estim_num_of_nodes, diffAbs]
  | 1, 0, _ => norm_num [estim_num_of_nodes]
  | 1, 1, _ => norm_num [estim_num_of_nodes, diffAbs]
  | 1, 2, _ => norm_num [estim_num_of_nodes, diffAbs]
  | i + 2, n, _ =>
    rw [List.drop_eq_nil_of_le
      (by simp only [List.length_cons, List.length_nil]; omega)]
    norm_num [estim_num_of_nodes]

end Pyhgtmap
